import Mathlib

/-!
Verification of the per-frame rendering pipeline of `icosa.c`
(bouncing wireframe over a checkerboard floor on a text display).

The C code is embedded shallowly:
* C `int` values become `ℤ` (no overflow is reachable in the modelled code);
* C `float` values become `ℚ` (the algorithms are modelled in exact
  arithmetic; `sinf`/`cosf` results and the startup constants derived with
  `sqrtf` enter as parameters);
* the global byte buffers `fb`/`floor_map` become functions `ℕ → ℕ`;
* the infinite `for (;;)` rasterizer loop becomes a fuel-indexed recursion,
  with fuel proved sufficient.
-/

namespace Icosa

/-! ## Dot framebuffer (`fb_clear`, `fb_set` from icosa.c) -/

/-- Sub-pixel width: `pw = cw * 2` in `main`. -/
def pwOf (cw : ℕ) : ℕ := cw * 2

/-- Sub-pixel height: `ph = ch * 4` in `main`. -/
def phOf (ch : ℕ) : ℕ := ch * 4

/-- The `bits[2][4]` table of `fb_set`. -/
def bitsTable (i j : ℕ) : ℕ :=
  match i, j with
  | 0, 0 => 0x01
  | 0, 1 => 0x02
  | 0, 2 => 0x04
  | 0, 3 => 0x40
  | 1, 0 => 0x08
  | 1, 1 => 0x10
  | 1, 2 => 0x20
  | _, _ => 0x80

/-- Bit position of the braille dot for sub-coordinates `(i, j) = (x % 2, y % 4)`:
each entry of `bitsTable` is a power of two. -/
def bitPos (i j : ℕ) : ℕ :=
  match i, j with
  | 0, 0 => 0
  | 0, 1 => 1
  | 0, 2 => 2
  | 0, 3 => 6
  | 1, 0 => 3
  | 1, 1 => 4
  | 1, 2 => 5
  | _, _ => 7

/-- The cleared framebuffer of `fb_clear` and of `calloc`: every byte is zero. -/
def fbClear : ℕ → ℕ := fun _ => 0

/-- Whether a sub-pixel coordinate passes the bounds test of `fb_set`. -/
def inBounds (cw ch : ℕ) (x y : ℤ) : Prop :=
  0 ≤ x ∧ x < (pwOf cw : ℤ) ∧ 0 ≤ y ∧ y < (phOf ch : ℤ)

instance (cw ch : ℕ) (x y : ℤ) : Decidable (inBounds cw ch x y) := by
  unfold inBounds; infer_instance

/-- Embedding of `fb_set`: clip out-of-bounds coordinates, otherwise OR the dot's bit into
the byte of the cell at `(y / 4) * cw + x / 2`. -/
def fbSet (cw ch : ℕ) (fb : ℕ → ℕ) (x y : ℤ) : ℕ → ℕ :=
  if x < 0 ∨ (pwOf cw : ℤ) ≤ x ∨ y < 0 ∨ (phOf ch : ℤ) ≤ y then fb
  else fun i =>
    if i = (y.toNat / 4) * cw + x.toNat / 2 then
      fb i ||| bitsTable (x.toNat % 2) (y.toNat % 4)
    else fb i

/-- Reading one braille dot out of the framebuffer. -/
def dotTest (cw : ℕ) (fb : ℕ → ℕ) (a b : ℕ) : Bool :=
  Nat.testBit (fb ((b / 4) * cw + a / 2)) (bitPos (a % 2) (b % 4))

/-- The finite set of lit dots of a framebuffer. -/
def markedDots (cw ch : ℕ) (fb : ℕ → ℕ) : Finset (ℕ × ℕ) :=
  (Finset.range (pwOf cw) ×ˢ Finset.range (phOf ch)).filter
    (fun p => dotTest cw fb p.1 p.2 = true)

lemma bitsTable_eq_two_pow (i j : ℕ) (hi : i < 2) (hj : j < 4) :
    bitsTable i j = 2 ^ bitPos i j := by
  interval_cases i <;> interval_cases j <;> rfl

lemma bitPos_inj (i j i2 j2 : ℕ) (hi : i < 2) (hj : j < 4) (hi2 : i2 < 2)
    (hj2 : j2 < 4) (h : bitPos i j = bitPos i2 j2) : i = i2 ∧ j = j2 := by
  interval_cases i <;> interval_cases j <;> interval_cases i2 <;>
    interval_cases j2 <;> simp_all [bitPos]

/-! ## Rasterizer (`draw_line` from icosa.c) -/

/-- The body of `draw_line`'s `for (;;)` loop, with explicit fuel.
Arguments after the fuel are the mutable locals `x0`, `y0`, `err`; the C
local `e2 = 2 * err` is inlined. -/
def lineLoop (x1 y1 sx sy dx dy : ℤ) : ℕ → ℤ → ℤ → ℤ → List (ℤ × ℤ)
  | 0, _, _, _ => []
  | n + 1, x0, y0, err =>
      (x0, y0) ::
        (if x0 = x1 ∧ y0 = y1 then []
         else
           lineLoop x1 y1 sx sy dx dy n
             (if dy ≤ 2 * err then x0 + sx else x0)
             (if 2 * err ≤ dx then y0 + sy else y0)
             ((if dy ≤ 2 * err then err + dy else err) +
               (if 2 * err ≤ dx then dx else 0)))

/-- The sub-pixel points visited by `draw_line(x0, y0, x1, y1)`, in visit
order, with the initialisation `dx = abs(x1-x0)`, `sx = x0 < x1 ? 1 : -1`,
`dy = -abs(y1-y0)`, `sy = y0 < y1 ? 1 : -1`, `err = dx + dy`.  The fuel
`|x1-x0| + |y1-y0| + 1` is proved sufficient below. -/
def linePoints (x0 y0 x1 y1 : ℤ) : List (ℤ × ℤ) :=
  lineLoop x1 y1 (if x0 < x1 then 1 else -1) (if y0 < y1 then 1 else -1)
    |x1 - x0| (-|y1 - y0|) (|x1 - x0| + |y1 - y0| + 1).toNat x0 y0
    (|x1 - x0| + -|y1 - y0|)

/-- Embedding of `draw_line`: call `fb_set` on every visited point, in order. -/
def drawLine (cw ch : ℕ) (fb : ℕ → ℕ) (x0 y0 x1 y1 : ℤ) : ℕ → ℕ :=
  (linePoints x0 y0 x1 y1).foldl (fun f p => fbSet cw ch f p.1 p.2) fb

lemma pick_sign (a b : ℤ) : a + (if a < b then (1:ℤ) else -1) * |b - a| = b := by
  split_ifs with h <;>
    rcases abs_cases (b - a) with ⟨h1, h2⟩ | ⟨h1, h2⟩ <;> rw [h1] <;> omega

/-! ### Framebuffer lemmas -/

lemma fbSet_oob (cw ch : ℕ) (fb : ℕ → ℕ) (x y : ℤ)
    (h : ¬ inBounds cw ch x y) : fbSet cw ch fb x y = fb := by
  unfold fbSet
  rw [if_pos]
  unfold inBounds at h
  omega

lemma fbSet_inb (cw ch : ℕ) (fb : ℕ → ℕ) (x y : ℤ)
    (h : inBounds cw ch x y) :
    fbSet cw ch fb x y = fun i =>
      if i = (y.toNat / 4) * cw + x.toNat / 2 then
        fb i ||| bitsTable (x.toNat % 2) (y.toNat % 4)
      else fb i := by
  unfold fbSet
  rw [if_neg]
  unfold inBounds at h
  omega

lemma fbSet_index_bound (cw ch : ℕ) (x y : ℤ) (h : inBounds cw ch x y) :
    (y.toNat / 4) * cw + x.toNat / 2 < cw * ch := by
  obtain ⟨hx0, hx1, hy0, hy1⟩ := h
  unfold pwOf at hx1
  unfold phOf at hy1
  have hxa : x.toNat / 2 < cw := by omega
  have hya : y.toNat / 4 < ch := by omega
  calc (y.toNat / 4) * cw + x.toNat / 2
      < (y.toNat / 4) * cw + cw := by omega
    _ = (y.toNat / 4 + 1) * cw := by ring
    _ ≤ ch * cw := Nat.mul_le_mul_right cw hya
    _ = cw * ch := Nat.mul_comm ch cw

lemma fbSet_apply_of_ge (cw ch : ℕ) (fb : ℕ → ℕ) (x y : ℤ) (i : ℕ)
    (hi : cw * ch ≤ i) : fbSet cw ch fb x y i = fb i := by
  by_cases h : inBounds cw ch x y
  · rw [fbSet_inb cw ch fb x y h]
    have := fbSet_index_bound cw ch x y h
    simp only []
    rw [if_neg (by omega)]
  · rw [fbSet_oob cw ch fb x y h]

lemma foldl_fbSet_apply_of_ge (cw ch : ℕ) (ps : List (ℤ × ℤ)) :
    ∀ (fb : ℕ → ℕ) (i : ℕ), cw * ch ≤ i →
      ps.foldl (fun f p => fbSet cw ch f p.1 p.2) fb i = fb i := by
  induction ps with
  | nil => intro fb i _; rfl
  | cons q qs ih =>
      intro fb i hi
      rw [List.foldl_cons, ih _ i hi, fbSet_apply_of_ge cw ch fb q.1 q.2 i hi]

lemma foldl_fbSet_of_oob (cw ch : ℕ) (ps : List (ℤ × ℤ)) :
    ∀ (fb : ℕ → ℕ), (∀ p ∈ ps, ¬ inBounds cw ch p.1 p.2) →
      ps.foldl (fun f p => fbSet cw ch f p.1 p.2) fb = fb := by
  induction ps with
  | nil => intro fb _; rfl
  | cons q qs ih =>
      intro fb h
      rw [List.foldl_cons, fbSet_oob cw ch fb q.1 q.2 (h q (by simp))]
      exact ih fb (fun p hp => h p (by simp [hp]))

lemma quot_uniq (q1 r1 q2 r2 c : ℕ) (h1 : r1 < c) (h2 : r2 < c)
    (h : q1 * c + r1 = q2 * c + r2) : q1 = q2 ∧ r1 = r2 := by
  have hc : 0 < c := by omega
  have e1 : (q1 * c + r1) / c = q1 := by
    rw [mul_comm, Nat.mul_add_div hc, Nat.div_eq_of_lt h1]; omega
  have e2 : (q2 * c + r2) / c = q2 := by
    rw [mul_comm, Nat.mul_add_div hc, Nat.div_eq_of_lt h2]; omega
  have hq : q1 = q2 := by rw [← e1, ← e2, h]
  subst hq
  omega

lemma dotTest_fbSet (cw ch : ℕ) (fb : ℕ → ℕ) (x y : ℤ) (a b : ℕ)
    (ha : a < pwOf cw) (hb : b < phOf ch) :
    dotTest cw (fbSet cw ch fb x y) a b = true ↔
      (dotTest cw fb a b = true ∨
        (inBounds cw ch x y ∧ x.toNat = a ∧ y.toNat = b)) := by
  have hcw : 0 < cw := by unfold pwOf at ha; omega
  by_cases hin : inBounds cw ch x y
  · rw [fbSet_inb cw ch fb x y hin]
    have hxn : x.toNat < cw * 2 := by
      obtain ⟨hx0, hx1, _, _⟩ := hin; unfold pwOf at hx1; omega
    have hyn : y.toNat < ch * 4 := by
      obtain ⟨_, _, hy0, hy1⟩ := hin; unfold phOf at hy1; omega
    unfold pwOf at ha
    unfold phOf at hb
    unfold dotTest
    simp only []
    by_cases hidx : (b / 4) * cw + a / 2 = (y.toNat / 4) * cw + x.toNat / 2
    · rw [if_pos hidx]
      rw [Nat.testBit_lor,
        bitsTable_eq_two_pow (x.toNat % 2) (y.toNat % 4) (by omega) (by omega)]
      obtain ⟨hq, hr⟩ := quot_uniq (b / 4) (a / 2) (y.toNat / 4) (x.toNat / 2)
        cw (by omega) (by omega) hidx
      by_cases hbit : bitPos (a % 2) (b % 4) = bitPos (x.toNat % 2) (y.toNat % 4)
      · rw [hbit, Nat.testBit_two_pow_self]
        obtain ⟨hm, hn⟩ := bitPos_inj (a % 2) (b % 4) (x.toNat % 2) (y.toNat % 4)
          (by omega) (by omega) (by omega) (by omega) hbit
        have hax : x.toNat = a := by omega
        have hby : y.toNat = b := by omega
        simp only [Bool.or_true, true_iff]
        exact Or.inr ⟨hin, hax, hby⟩
      · rw [Nat.testBit_two_pow_of_ne (fun hcon => hbit hcon.symm)]
        have hno : ¬ (x.toNat = a ∧ y.toNat = b) := by
          rintro ⟨rfl, rfl⟩
          exact hbit rfl
        simp only [Bool.or_false]
        constructor
        · intro hl; exact Or.inl hl
        · rintro (hl | ⟨_, hxa, hyb⟩)
          · exact hl
          · exact absurd ⟨hxa, hyb⟩ hno
    · rw [if_neg hidx]
      have hno : ¬ (x.toNat = a ∧ y.toNat = b) := by
        rintro ⟨rfl, rfl⟩
        exact hidx rfl
      constructor
      · intro hl; exact Or.inl hl
      · rintro (hl | ⟨_, hxa, hyb⟩)
        · exact hl
        · exact absurd ⟨hxa, hyb⟩ hno
  · rw [fbSet_oob cw ch fb x y hin]
    simp [hin]

lemma dotTest_fbSet_mono (cw ch : ℕ) (fb : ℕ → ℕ) (x y : ℤ) (a b : ℕ)
    (h : dotTest cw fb a b = true) :
    dotTest cw (fbSet cw ch fb x y) a b = true := by
  by_cases hin : inBounds cw ch x y
  · rw [fbSet_inb cw ch fb x y hin]
    unfold dotTest at h ⊢
    simp only []
    split_ifs with hidx
    · rw [Nat.testBit_lor, h, Bool.true_or]
    · exact h
  · rw [fbSet_oob cw ch fb x y hin]
    exact h

lemma dotTest_foldl_mono (cw ch : ℕ) (ps : List (ℤ × ℤ)) :
    ∀ (fb : ℕ → ℕ) (a b : ℕ), dotTest cw fb a b = true →
      dotTest cw (ps.foldl (fun f p => fbSet cw ch f p.1 p.2) fb) a b = true := by
  induction ps with
  | nil => intro fb a b h; exact h
  | cons q qs ih =>
      intro fb a b h
      rw [List.foldl_cons]
      exact ih _ a b (dotTest_fbSet_mono cw ch fb q.1 q.2 a b h)

lemma dotTest_foldl (cw ch : ℕ) (ps : List (ℤ × ℤ)) :
    ∀ (fb : ℕ → ℕ) (a b : ℕ), a < pwOf cw → b < phOf ch →
      (dotTest cw (ps.foldl (fun f p => fbSet cw ch f p.1 p.2) fb) a b = true ↔
        dotTest cw fb a b = true ∨
          ∃ p ∈ ps, inBounds cw ch p.1 p.2 ∧ p.1.toNat = a ∧ p.2.toNat = b) := by
  induction ps with
  | nil => intro fb a b _ _; simp
  | cons q qs ih =>
      intro fb a b ha hb
      rw [List.foldl_cons, ih _ a b ha hb, dotTest_fbSet cw ch fb q.1 q.2 a b ha hb]
      simp only [List.mem_cons]
      constructor
      · rintro ((hl | hq) | ⟨p, hp, hrest⟩)
        · exact Or.inl hl
        · exact Or.inr ⟨q, Or.inl rfl, hq⟩
        · exact Or.inr ⟨p, Or.inr hp, hrest⟩
      · rintro (hl | ⟨p, (rfl | hp), hrest⟩)
        · exact Or.inl (Or.inl hl)
        · exact Or.inl (Or.inr hrest)
        · exact Or.inr ⟨p, hp, hrest⟩

lemma dotTest_fbClear (cw a b : ℕ) : dotTest cw fbClear a b = false := by
  simp [dotTest, fbClear]

lemma dotTest_drawLine_clear (cw ch : ℕ) (x0 y0 x1 y1 : ℤ) (a b : ℕ)
    (ha : a < pwOf cw) (hb : b < phOf ch) :
    dotTest cw (drawLine cw ch fbClear x0 y0 x1 y1) a b = true ↔
      ∃ p ∈ linePoints x0 y0 x1 y1,
        inBounds cw ch p.1 p.2 ∧ p.1.toNat = a ∧ p.2.toNat = b := by
  unfold drawLine
  rw [dotTest_foldl cw ch _ fbClear a b ha hb, dotTest_fbClear]
  simp

/-- Invariant of the `draw_line` loop.  The state after some steps is
described by the remaining step counts `rx` (toward `x1`, in direction `sx`)
and `ry` (toward `y1`, in direction `sy`); the error accumulator then equals
`dx + dy - dy * rx - dx * ry`.  With fuel exceeding `rx + ry`, the loop
starts at the current point, ends exactly at the endpoint, stays inside the
bounding box, and its output does not depend on the fuel. -/
lemma lineLoop_spec (sx sy dx dy : ℤ) (hsx : sx = 1 ∨ sx = -1)
    (hsy : sy = 1 ∨ sy = -1) (hdx : 0 ≤ dx) (hdy : dy ≤ 0) :
    ∀ (n : ℕ) (x y rx ry : ℤ), 0 ≤ rx → rx ≤ dx → 0 ≤ ry → ry ≤ -dy →
      rx + ry < (n : ℤ) →
      (lineLoop (x + sx * rx) (y + sy * ry) sx sy dx dy n x y
          (dx + dy - dy * rx - dx * ry)).head? = some (x, y) ∧
      (lineLoop (x + sx * rx) (y + sy * ry) sx sy dx dy n x y
          (dx + dy - dy * rx - dx * ry)).getLast? =
        some (x + sx * rx, y + sy * ry) ∧
      (∀ p ∈ lineLoop (x + sx * rx) (y + sy * ry) sx sy dx dy n x y
          (dx + dy - dy * rx - dx * ry),
        ∃ t u : ℤ, 0 ≤ t ∧ t ≤ rx ∧ 0 ≤ u ∧ u ≤ ry ∧
          p = (x + sx * t, y + sy * u)) ∧
      (∀ m : ℕ, rx + ry < (m : ℤ) →
        lineLoop (x + sx * rx) (y + sy * ry) sx sy dx dy m x y
          (dx + dy - dy * rx - dx * ry) =
        lineLoop (x + sx * rx) (y + sy * ry) sx sy dx dy n x y
          (dx + dy - dy * rx - dx * ry)) := by
  have hsx0 : sx ≠ 0 := by rcases hsx with rfl | rfl <;> decide
  have hsy0 : sy ≠ 0 := by rcases hsy with rfl | rfl <;> decide
  intro n
  induction n with
  | zero => intro x y rx ry h0 h1 h2 h3 hn; exfalso; push_cast at hn; omega
  | succ n ih =>
    intro x y rx ry h0 h1 h2 h3 hn
    by_cases hbreak : rx = 0 ∧ ry = 0
    · obtain ⟨rfl, rfl⟩ := hbreak
      simp only [mul_zero, add_zero, sub_zero]
      have hself : ∀ k : ℕ,
          lineLoop x y sx sy dx dy (k + 1) x y (dx + dy) = [(x, y)] := by
        intro k
        simp [lineLoop]
      rw [hself n]
      refine ⟨rfl, rfl, ?_, ?_⟩
      · intro p hp
        rw [List.mem_singleton] at hp
        exact ⟨0, 0, le_refl 0, le_refl 0, le_refl 0, le_refl 0, by simp [hp]⟩
      · intro m hm
        obtain ⟨m2, rfl⟩ : ∃ m2, m = m2 + 1 := ⟨m - 1, by omega⟩
        exact hself m2
    · -- the loop takes a step
      have hne : ¬ (x = x + sx * rx ∧ y = y + sy * ry) := by
        rintro ⟨hxx, hyy⟩
        have e1 : sx * rx = 0 := by linarith
        have e2 : sy * ry = 0 := by linarith
        rcases mul_eq_zero.mp e1 with h | h
        · exact hsx0 h
        rcases mul_eq_zero.mp e2 with h2a | h2a
        · exact hsy0 h2a
        exact hbreak ⟨h, h2a⟩
      have hrxpos : dy ≤ 2 * (dx + dy - dy * rx - dx * ry) → 1 ≤ rx := by
        intro hxx
        by_contra hcon
        have hrx0 : rx = 0 := by omega
        subst hrx0
        have hry1 : 1 ≤ ry := by
          rcases not_and_or.mp hbreak with h | h
          · exact absurd rfl h
          · omega
        have hp : 0 ≤ dx * (ry - 1) := mul_nonneg hdx (by omega)
        have hexp : dx * (ry - 1) = dx * ry - dx := by ring
        have hdyneg : dy ≤ -1 := by omega
        have hz : dy * (0 : ℤ) = 0 := by ring
        linarith
      have hrypos : 2 * (dx + dy - dy * rx - dx * ry) ≤ dx → 1 ≤ ry := by
        intro hyy
        by_contra hcon
        have hry0 : ry = 0 := by omega
        subst hry0
        have hrx1 : 1 ≤ rx := by
          rcases not_and_or.mp hbreak with h | h
          · omega
          · exact absurd rfl h
        have hp : 0 ≤ (-dy) * (rx - 1) := mul_nonneg (by omega) (by omega)
        have hexp : (-dy) * (rx - 1) = -(dy * rx) + dy := by ring
        have hdx1 : 1 ≤ dx := by omega
        have hz : dx * (0 : ℤ) = 0 := by ring
        linarith
      by_cases hx : dy ≤ 2 * (dx + dy - dy * rx - dx * ry) <;>
        by_cases hy2 : 2 * (dx + dy - dy * rx - dx * ry) ≤ dx
      · -- diagonal step
        have hrx1 := hrxpos hx
        have hry1 := hrypos hy2
        have hstep : ∀ k : ℕ,
            lineLoop (x + sx * rx) (y + sy * ry) sx sy dx dy (k + 1) x y
              (dx + dy - dy * rx - dx * ry) =
            (x, y) :: lineLoop (x + sx * rx) (y + sy * ry) sx sy dx dy k
              (x + sx) (y + sy)
              (dx + dy - dy * rx - dx * ry + dy + dx) := by
          intro k
          simp only [lineLoop]
          rw [if_neg hne, if_pos hx, if_pos hy2, if_pos hx, if_pos hy2]
        obtain ⟨ih1, ih2, ih3, ih4⟩ := ih (x + sx) (y + sy) (rx - 1) (ry - 1)
          (by omega) (by omega) (by omega) (by omega) (by push_cast at hn ⊢; omega)
        have ex : x + sx + sx * (rx - 1) = x + sx * rx := by ring
        have ey : y + sy + sy * (ry - 1) = y + sy * ry := by ring
        have ee : dx + dy - dy * (rx - 1) - dx * (ry - 1) =
            dx + dy - dy * rx - dx * ry + dy + dx := by ring
        rw [ex, ey, ee] at ih1 ih2 ih3 ih4
        rw [hstep n]
        refine ⟨rfl, ?_, ?_, ?_⟩
        · have hnil : lineLoop (x + sx * rx) (y + sy * ry) sx sy dx dy n
              (x + sx) (y + sy)
              (dx + dy - dy * rx - dx * ry + dy + dx) ≠ [] := by
            intro hcon
            rw [hcon] at ih1
            simp at ih1
          obtain ⟨c, cs, hc⟩ := List.exists_cons_of_ne_nil hnil
          rw [hc, List.getLast?_cons_cons, ← hc]
          exact ih2
        · intro p hp
          rcases List.mem_cons.mp hp with hp | hp
          · exact ⟨0, 0, le_refl 0, h0, le_refl 0, h2, by simp [hp]⟩
          · obtain ⟨t, u, ht0, ht1, hu0, hu1, hpe⟩ := ih3 p hp
            refine ⟨t + 1, u + 1, by omega, by omega, by omega, by omega, ?_⟩
            rw [hpe]
            simp only [Prod.mk.injEq]
            constructor <;> ring
        · intro m hm
          obtain ⟨m2, rfl⟩ : ∃ m2, m = m2 + 1 := ⟨m - 1, by omega⟩
          rw [hstep m2]
          congr 1
          exact ih4 m2 (by push_cast at hm ⊢; omega)
      · -- x-only step
        have hrx1 := hrxpos hx
        have hstep : ∀ k : ℕ,
            lineLoop (x + sx * rx) (y + sy * ry) sx sy dx dy (k + 1) x y
              (dx + dy - dy * rx - dx * ry) =
            (x, y) :: lineLoop (x + sx * rx) (y + sy * ry) sx sy dx dy k
              (x + sx) y (dx + dy - dy * rx - dx * ry + dy + 0) := by
          intro k
          simp only [lineLoop]
          rw [if_neg hne, if_pos hx, if_neg hy2, if_pos hx, if_neg hy2]
        obtain ⟨ih1, ih2, ih3, ih4⟩ := ih (x + sx) y (rx - 1) ry
          (by omega) (by omega) (by omega) (by omega) (by push_cast at hn ⊢; omega)
        have ex : x + sx + sx * (rx - 1) = x + sx * rx := by ring
        have ee : dx + dy - dy * (rx - 1) - dx * ry =
            dx + dy - dy * rx - dx * ry + dy + 0 := by ring
        rw [ex, ee] at ih1 ih2 ih3 ih4
        rw [hstep n]
        refine ⟨rfl, ?_, ?_, ?_⟩
        · have hnil : lineLoop (x + sx * rx) (y + sy * ry) sx sy dx dy n
              (x + sx) y (dx + dy - dy * rx - dx * ry + dy + 0) ≠ [] := by
            intro hcon
            rw [hcon] at ih1
            simp at ih1
          obtain ⟨c, cs, hc⟩ := List.exists_cons_of_ne_nil hnil
          rw [hc, List.getLast?_cons_cons, ← hc]
          exact ih2
        · intro p hp
          rcases List.mem_cons.mp hp with hp | hp
          · exact ⟨0, 0, le_refl 0, h0, le_refl 0, h2, by simp [hp]⟩
          · obtain ⟨t, u, ht0, ht1, hu0, hu1, hpe⟩ := ih3 p hp
            refine ⟨t + 1, u, by omega, by omega, by omega, by omega, ?_⟩
            rw [hpe]
            simp only [Prod.mk.injEq]
            constructor <;> ring
        · intro m hm
          obtain ⟨m2, rfl⟩ : ∃ m2, m = m2 + 1 := ⟨m - 1, by omega⟩
          rw [hstep m2]
          congr 1
          exact ih4 m2 (by push_cast at hm ⊢; omega)
      · -- y-only step
        have hry1 := hrypos hy2
        have hstep : ∀ k : ℕ,
            lineLoop (x + sx * rx) (y + sy * ry) sx sy dx dy (k + 1) x y
              (dx + dy - dy * rx - dx * ry) =
            (x, y) :: lineLoop (x + sx * rx) (y + sy * ry) sx sy dx dy k
              x (y + sy) (dx + dy - dy * rx - dx * ry + dx) := by
          intro k
          simp only [lineLoop]
          rw [if_neg hne, if_neg hx, if_pos hy2, if_neg hx, if_pos hy2]
        obtain ⟨ih1, ih2, ih3, ih4⟩ := ih x (y + sy) rx (ry - 1)
          (by omega) (by omega) (by omega) (by omega) (by push_cast at hn ⊢; omega)
        have ey : y + sy + sy * (ry - 1) = y + sy * ry := by ring
        have ee : dx + dy - dy * rx - dx * (ry - 1) =
            dx + dy - dy * rx - dx * ry + dx := by ring
        rw [ey, ee] at ih1 ih2 ih3 ih4
        rw [hstep n]
        refine ⟨rfl, ?_, ?_, ?_⟩
        · have hnil : lineLoop (x + sx * rx) (y + sy * ry) sx sy dx dy n
              x (y + sy) (dx + dy - dy * rx - dx * ry + dx) ≠ [] := by
            intro hcon
            rw [hcon] at ih1
            simp at ih1
          obtain ⟨c, cs, hc⟩ := List.exists_cons_of_ne_nil hnil
          rw [hc, List.getLast?_cons_cons, ← hc]
          exact ih2
        · intro p hp
          rcases List.mem_cons.mp hp with hp | hp
          · exact ⟨0, 0, le_refl 0, h0, le_refl 0, h2, by simp [hp]⟩
          · obtain ⟨t, u, ht0, ht1, hu0, hu1, hpe⟩ := ih3 p hp
            refine ⟨t, u + 1, by omega, by omega, by omega, by omega, ?_⟩
            rw [hpe]
            simp only [Prod.mk.injEq]
            constructor <;> ring
        · intro m hm
          obtain ⟨m2, rfl⟩ : ∃ m2, m = m2 + 1 := ⟨m - 1, by omega⟩
          rw [hstep m2]
          congr 1
          exact ih4 m2 (by push_cast at hm ⊢; omega)
      · exfalso
        push_neg at hx hy2
        linarith

lemma linePoints_spec (x0 y0 x1 y1 : ℤ) :
    (linePoints x0 y0 x1 y1).head? = some (x0, y0) ∧
    (linePoints x0 y0 x1 y1).getLast? = some (x1, y1) ∧
    ∀ p ∈ linePoints x0 y0 x1 y1,
      min x0 x1 ≤ p.1 ∧ p.1 ≤ max x0 x1 ∧ min y0 y1 ≤ p.2 ∧ p.2 ≤ max y0 y1 := by
  have habs : (0:ℤ) ≤ |x1 - x0| := abs_nonneg _
  have habs2 : (0:ℤ) ≤ |y1 - y0| := abs_nonneg _
  have hfuel : |x1 - x0| + |y1 - y0| <
      (((|x1 - x0| + |y1 - y0| + 1).toNat : ℕ) : ℤ) := by
    rw [Int.toNat_of_nonneg (by omega)]; omega
  obtain ⟨h1, h2, h3, _⟩ := lineLoop_spec (if x0 < x1 then 1 else -1)
    (if y0 < y1 then 1 else -1) |x1 - x0| (-|y1 - y0|)
    (by split_ifs <;> simp) (by split_ifs <;> simp) habs (by omega)
    (|x1 - x0| + |y1 - y0| + 1).toNat x0 y0 |x1 - x0| |y1 - y0|
    habs (le_refl _) habs2 (by omega) hfuel
  have he : |x1 - x0| + -|y1 - y0| - -|y1 - y0| * |x1 - x0| -
      |x1 - x0| * |y1 - y0| = |x1 - x0| + -|y1 - y0| := by ring
  rw [pick_sign x0 x1, pick_sign y0 y1, he] at h1 h2 h3
  simp only [linePoints]
  refine ⟨h1, h2, ?_⟩
  intro p hp
  obtain ⟨t, u, ht0, ht1, hu0, hu1, hpe⟩ := h3 p hp
  rw [hpe]
  dsimp only
  rcases lt_or_le x0 x1 with hxc | hxc <;> rcases lt_or_le y0 y1 with hyc | hyc
  · rw [if_pos hxc, if_pos hyc,
      min_eq_left hxc.le, max_eq_right hxc.le,
      min_eq_left hyc.le, max_eq_right hyc.le]
    rw [abs_of_nonneg (by omega : (0:ℤ) ≤ x1 - x0)] at ht1
    rw [abs_of_nonneg (by omega : (0:ℤ) ≤ y1 - y0)] at hu1
    omega
  · rw [if_pos hxc, if_neg (by omega : ¬ y0 < y1),
      min_eq_left hxc.le, max_eq_right hxc.le,
      min_eq_right hyc, max_eq_left hyc]
    rw [abs_of_nonneg (by omega : (0:ℤ) ≤ x1 - x0)] at ht1
    rw [abs_of_nonpos (by omega : y1 - y0 ≤ 0)] at hu1
    omega
  · rw [if_neg (by omega : ¬ x0 < x1), if_pos hyc,
      min_eq_right hxc, max_eq_left hxc,
      min_eq_left hyc.le, max_eq_right hyc.le]
    rw [abs_of_nonpos (by omega : x1 - x0 ≤ 0)] at ht1
    rw [abs_of_nonneg (by omega : (0:ℤ) ≤ y1 - y0)] at hu1
    omega
  · rw [if_neg (by omega : ¬ x0 < x1), if_neg (by omega : ¬ y0 < y1),
      min_eq_right hxc, max_eq_left hxc,
      min_eq_right hyc, max_eq_left hyc]
    rw [abs_of_nonpos (by omega : x1 - x0 ≤ 0)] at ht1
    rw [abs_of_nonpos (by omega : y1 - y0 ≤ 0)] at hu1
    omega

/-- The fuel used by `linePoints` is sufficient: any larger fuel produces
the same visited-point list, i.e. the loop genuinely reaches its `break`. -/
lemma linePoints_fuel (x0 y0 x1 y1 : ℤ) (m : ℕ)
    (hm : |x1 - x0| + |y1 - y0| < (m : ℤ)) :
    lineLoop x1 y1 (if x0 < x1 then 1 else -1) (if y0 < y1 then 1 else -1)
      |x1 - x0| (-|y1 - y0|) m x0 y0 (|x1 - x0| + -|y1 - y0|) =
    linePoints x0 y0 x1 y1 := by
  have habs : (0:ℤ) ≤ |x1 - x0| := abs_nonneg _
  have habs2 : (0:ℤ) ≤ |y1 - y0| := abs_nonneg _
  have hfuel : |x1 - x0| + |y1 - y0| <
      (((|x1 - x0| + |y1 - y0| + 1).toNat : ℕ) : ℤ) := by
    rw [Int.toNat_of_nonneg (by omega)]; omega
  obtain ⟨_, _, _, h4⟩ := lineLoop_spec (if x0 < x1 then 1 else -1)
    (if y0 < y1 then 1 else -1) |x1 - x0| (-|y1 - y0|)
    (by split_ifs <;> simp) (by split_ifs <;> simp) habs (by omega)
    (|x1 - x0| + |y1 - y0| + 1).toNat x0 y0 |x1 - x0| |y1 - y0|
    habs (le_refl _) habs2 (by omega) hfuel
  have he : |x1 - x0| + -|y1 - y0| - -|y1 - y0| * |x1 - x0| -
      |x1 - x0| * |y1 - y0| = |x1 - x0| + -|y1 - y0| := by ring
  rw [pick_sign x0 x1, pick_sign y0 y1, he] at h4
  simp only [linePoints]
  exact h4 m hm

/-- On a horizontal segment the loop never takes a `y` step and the error
accumulator is constant, so starting `j` steps before the endpoint it visits
exactly the points `(N - j, 0), …, (N, 0)`. -/
lemma lineLoop_horiz (N sy : ℤ) :
    ∀ (n : ℕ) (j : ℕ), (j : ℤ) ≤ N → j < n →
      lineLoop N 0 1 sy N 0 n (N - (j : ℤ)) 0 N =
        (List.range (j + 1)).map
          (fun i : ℕ => (N - (j : ℤ) + (i : ℤ), (0 : ℤ))) := by
  intro n
  induction n with
  | zero => intro j _ h; omega
  | succ n ih =>
    intro j hj hn
    match j with
    | 0 =>
      simp only [Nat.cast_zero, sub_zero]
      simp [lineLoop, List.range_succ]
    | j + 1 =>
      have hN1 : 1 ≤ N := by omega
      simp only [lineLoop]
      rw [if_neg (by
        rintro ⟨h, _⟩
        omega : ¬ (N - ((j+1 : ℕ) : ℤ) = N ∧ True))]
      rw [if_pos (by omega : (0:ℤ) ≤ 2 * N),
        if_neg (by omega : ¬ (2 * N ≤ N)),
        if_pos (by omega : (0:ℤ) ≤ 2 * N),
        if_neg (by omega : ¬ (2 * N ≤ N))]
      have hx : N - ((j + 1 : ℕ) : ℤ) + 1 = N - (j : ℤ) := by push_cast; ring
      simp only [add_zero, hx]
      rw [ih j (by push_cast at hj ⊢; omega) (by omega)]
      conv_rhs => rw [List.range_succ_eq_map, List.map_cons, List.map_map]
      congr 1
      · simp
      · apply List.map_congr_left
        intro i _
        simp only [Function.comp_apply, Prod.mk.injEq]
        constructor
        · push_cast; ring
        · trivial

lemma linePoints_self (a b : ℤ) : linePoints a b a b = [(a, b)] := by
  simp [linePoints, lineLoop]

lemma linePoints_horiz (N : ℕ) :
    linePoints 0 0 (N : ℤ) 0 =
      (List.range (N + 1)).map (fun i : ℕ => ((i : ℤ), (0 : ℤ))) := by
  match N with
  | 0 => simp [linePoints, lineLoop, List.range_succ]
  | N + 1 =>
    have hpos : (0:ℤ) < ((N + 1 : ℕ) : ℤ) := by push_cast; omega
    unfold linePoints
    rw [if_pos hpos, if_neg (lt_irrefl (0:ℤ)), sub_zero,
      abs_of_nonneg hpos.le, sub_zero, abs_zero, neg_zero]
    have hfuel : ((((N + 1 : ℕ) : ℤ) + 0 + 1).toNat) = N + 2 := by
      push_cast; omega
    rw [hfuel, add_zero]
    have h := lineLoop_horiz ((N + 1 : ℕ) : ℤ) (-1) (N + 2) (N + 1)
      (le_refl _) (by omega)
    simp only [sub_self, zero_add] at h
    exact h

lemma markedDots_fbClear (cw ch : ℕ) : markedDots cw ch fbClear = ∅ := by
  simp [markedDots, dotTest_fbClear]

lemma marked_deg_inb (cw ch : ℕ) (a b : ℤ) (h : inBounds cw ch a b) :
    markedDots cw ch (drawLine cw ch fbClear a b a b) = {(a.toNat, b.toNat)} := by
  obtain ⟨ha0, ha1, hb0, hb1⟩ := h
  ext q
  simp only [markedDots, Finset.mem_filter, Finset.mem_product,
    Finset.mem_range, Finset.mem_singleton]
  constructor
  · rintro ⟨⟨hu, hv⟩, hd⟩
    rw [dotTest_drawLine_clear cw ch a b a b q.1 q.2 hu hv,
      linePoints_self] at hd
    obtain ⟨p, hp, _, hp1, hp2⟩ := hd
    rw [List.mem_singleton] at hp
    subst hp
    ext <;> simp [← hp1, ← hp2]
  · intro hq
    have hu : q.1 < pwOf cw := by
      rw [hq]; simp only []; omega
    have hv : q.2 < phOf ch := by
      rw [hq]; simp only []; omega
    refine ⟨⟨hu, hv⟩, ?_⟩
    rw [dotTest_drawLine_clear cw ch a b a b q.1 q.2 hu hv, linePoints_self]
    exact ⟨(a, b), List.mem_singleton.mpr rfl, ⟨ha0, ha1, hb0, hb1⟩,
      by rw [hq], by rw [hq]⟩

lemma marked_deg_oob (cw ch : ℕ) (a b : ℤ) (h : ¬ inBounds cw ch a b) :
    markedDots cw ch (drawLine cw ch fbClear a b a b) = ∅ := by
  unfold drawLine
  rw [foldl_fbSet_of_oob cw ch _ fbClear, markedDots_fbClear]
  intro p hp
  rw [linePoints_self, List.mem_singleton] at hp
  subst hp
  exact h

lemma marked_seg_oob (cw ch : ℕ) (x0 y0 x1 y1 : ℤ)
    (h : max x0 x1 < 0 ∨ (pwOf cw : ℤ) ≤ min x0 x1 ∨
      max y0 y1 < 0 ∨ (phOf ch : ℤ) ≤ min y0 y1) :
    markedDots cw ch (drawLine cw ch fbClear x0 y0 x1 y1) = ∅ := by
  unfold drawLine
  rw [foldl_fbSet_of_oob cw ch _ fbClear, markedDots_fbClear]
  intro p hp
  obtain ⟨_, _, hbox⟩ := linePoints_spec x0 y0 x1 y1
  obtain ⟨hb1, hb2, hb3, hb4⟩ := hbox p hp
  rintro ⟨hp0, hp1, hp2, hp3⟩
  rcases h with h | h | h | h <;> omega

lemma marked_horiz (cw ch : ℕ) (N : ℕ) (hN : N < pwOf cw) (hch : 0 < ch) :
    markedDots cw ch (drawLine cw ch fbClear 0 0 (N : ℤ) 0) =
      (Finset.range (N + 1)).image (fun i => (i, 0)) := by
  have hph : 0 < phOf ch := by unfold phOf; omega
  ext q
  simp only [markedDots, Finset.mem_filter, Finset.mem_product,
    Finset.mem_range, Finset.mem_image]
  constructor
  · rintro ⟨⟨hu, hv⟩, hd⟩
    rw [dotTest_drawLine_clear cw ch 0 0 (N : ℤ) 0 q.1 q.2 hu hv,
      linePoints_horiz] at hd
    obtain ⟨p, hp, hin, hp1, hp2⟩ := hd
    rw [List.mem_map] at hp
    obtain ⟨i, hi, rfl⟩ := hp
    rw [List.mem_range] at hi
    refine ⟨i, hi, ?_⟩
    simp only [Int.toNat_natCast, Int.toNat_zero] at hp1 hp2
    ext <;> simp [hp1, hp2]
  · rintro ⟨i, hi, hq⟩
    have hu : q.1 < pwOf cw := by rw [← hq]; simp only []; omega
    have hv : q.2 < phOf ch := by rw [← hq]; simp only []; omega
    refine ⟨⟨hu, hv⟩, ?_⟩
    rw [dotTest_drawLine_clear cw ch 0 0 (N : ℤ) 0 q.1 q.2 hu hv,
      linePoints_horiz]
    refine ⟨((i : ℤ), (0 : ℤ)), List.mem_map.mpr ⟨i, List.mem_range.mpr hi, rfl⟩,
      ⟨by positivity, by push_cast; omega, le_refl 0, by push_cast; omega⟩,
      ?_, ?_⟩
    · rw [← hq]; simp
    · rw [← hq]; simp

lemma dotTest_fbSet_self (cw ch : ℕ) (fb : ℕ → ℕ) (x y : ℤ)
    (h : inBounds cw ch x y) :
    dotTest cw (fbSet cw ch fb x y) x.toNat y.toNat = true := by
  obtain ⟨hx0, hx1, hy0, hy1⟩ := h
  unfold pwOf at hx1
  unfold phOf at hy1
  rw [fbSet_inb cw ch fb x y ⟨hx0, by unfold pwOf; omega, hy0, by unfold phOf; omega⟩]
  unfold dotTest
  simp only [if_true]
  rw [bitsTable_eq_two_pow (x.toNat % 2) (y.toNat % 4) (by omega) (by omega),
    Nat.testBit_lor, Nat.testBit_two_pow_self, Bool.or_true]

lemma dotTest_foldl_marks (cw ch : ℕ) (ps : List (ℤ × ℤ)) :
    ∀ (fb : ℕ → ℕ) (p : ℤ × ℤ), p ∈ ps → inBounds cw ch p.1 p.2 →
      dotTest cw (ps.foldl (fun f q => fbSet cw ch f q.1 q.2) fb)
        p.1.toNat p.2.toNat = true := by
  induction ps with
  | nil => intro fb p hp _; simp at hp
  | cons q qs ih =>
      intro fb p hp hin
      rw [List.foldl_cons]
      rcases List.mem_cons.mp hp with rfl | hp
      · exact dotTest_foldl_mono cw ch qs _ _ _
          (dotTest_fbSet_self cw ch fb p.1 p.2 hin)
      · exact ih _ p hp hin

/-- Claim C4: a degenerate segment drawn into a cleared framebuffer marks
exactly one sub-pixel cell when in bounds and zero when out of bounds; a
segment whose bounding box lies entirely outside the sub-pixel grid marks
zero cells; and a segment from `(0,0)` to `(N,0)` that is in bounds marks
exactly `N + 1` collinear cells, namely `(0,0) … (N,0)`. -/
theorem c4_raster_counts (cw ch : ℕ) :
    (∀ a b : ℤ, inBounds cw ch a b →
      markedDots cw ch (drawLine cw ch fbClear a b a b) = {(a.toNat, b.toNat)} ∧
      (markedDots cw ch (drawLine cw ch fbClear a b a b)).card = 1) ∧
    (∀ a b : ℤ, ¬ inBounds cw ch a b →
      (markedDots cw ch (drawLine cw ch fbClear a b a b)).card = 0) ∧
    (∀ x0 y0 x1 y1 : ℤ,
      (max x0 x1 < 0 ∨ (pwOf cw : ℤ) ≤ min x0 x1 ∨
        max y0 y1 < 0 ∨ (phOf ch : ℤ) ≤ min y0 y1) →
      (markedDots cw ch (drawLine cw ch fbClear x0 y0 x1 y1)).card = 0) ∧
    (∀ N : ℕ, N < pwOf cw → 0 < ch →
      markedDots cw ch (drawLine cw ch fbClear 0 0 (N : ℤ) 0) =
        (Finset.range (N + 1)).image (fun i => (i, 0)) ∧
      (markedDots cw ch (drawLine cw ch fbClear 0 0 (N : ℤ) 0)).card = N + 1) := by
  refine ⟨?_, ?_, ?_, ?_⟩
  · intro a b h
    refine ⟨marked_deg_inb cw ch a b h, ?_⟩
    rw [marked_deg_inb cw ch a b h]
    exact Finset.card_singleton _
  · intro a b h
    rw [marked_deg_oob cw ch a b h]
    exact Finset.card_empty
  · intro x0 y0 x1 y1 h
    rw [marked_seg_oob cw ch x0 y0 x1 y1 h]
    exact Finset.card_empty
  · intro N hN hch
    refine ⟨marked_horiz cw ch N hN hch, ?_⟩
    rw [marked_horiz cw ch N hN hch]
    rw [Finset.card_image_of_injective _ (fun a b h => by simpa using h),
      Finset.card_range]

theorem c4_raster_counts_witness :
    markedDots 3 1 (drawLine 3 1 fbClear 2 1 2 1) = {(2, 1)} ∧
    (markedDots 3 1 (drawLine 3 1 fbClear (-1) 0 (-1) 0)).card = 0 ∧
    (markedDots 3 1 (drawLine 3 1 fbClear (-5) (-3) (-1) (-2))).card = 0 ∧
    (markedDots 3 1 (drawLine 3 1 fbClear 0 0 4 0)).card = 5 :=
  ⟨((c4_raster_counts 3 1).1 2 1 (by decide)).1,
   (c4_raster_counts 3 1).2.1 (-1) 0 (by decide),
   (c4_raster_counts 3 1).2.2.1 (-5) (-3) (-1) (-2) (by decide),
   ((c4_raster_counts 3 1).2.2.2 4 (by decide) (by decide)).2⟩

/-- Claim C5: rasterizing any segment is total and safe — the framebuffer is
modified only at indices below `cw * ch`, while every in-bounds sub-pixel
visited by the segment is still marked, so partially off-screen segments are
partially drawn and out-of-bounds sub-pixels are silently discarded. -/
theorem c5_raster_safety (cw ch : ℕ) (fb : ℕ → ℕ) (x0 y0 x1 y1 : ℤ) :
    (∀ i : ℕ, cw * ch ≤ i → drawLine cw ch fb x0 y0 x1 y1 i = fb i) ∧
    (∀ p ∈ linePoints x0 y0 x1 y1, inBounds cw ch p.1 p.2 →
      dotTest cw (drawLine cw ch fb x0 y0 x1 y1) p.1.toNat p.2.toNat = true) := by
  constructor
  · intro i hi
    exact foldl_fbSet_apply_of_ge cw ch _ fb i hi
  · intro p hp hin
    exact dotTest_foldl_marks cw ch _ fb p hp hin

theorem c5_raster_safety_witness :
    drawLine 1 1 fbClear 0 0 1 3 7 = fbClear 7 ∧
    dotTest 1 (drawLine 1 1 fbClear 0 0 1 3) 1 3 = true :=
  ⟨(c5_raster_safety 1 1 fbClear 0 0 1 3).1 7 (by decide),
   (c5_raster_safety 1 1 fbClear 0 0 1 3).2 (1, 3) (by decide) (by decide)⟩

/-- Claim C6: the `draw_line` loop terminates for every pair of integer
endpoints — with fuel `|x1-x0| + |y1-y0| + 1` it reaches its `break`, and any
larger fuel yields the same point list — and the visited points start at
`(x0, y0)` and end exactly at `(x1, y1)`, so both endpoints are visited. -/
theorem c6_line_terminates (x0 y0 x1 y1 : ℤ) :
    (∀ m : ℕ, |x1 - x0| + |y1 - y0| < (m : ℤ) →
      lineLoop x1 y1 (if x0 < x1 then 1 else -1) (if y0 < y1 then 1 else -1)
        |x1 - x0| (-|y1 - y0|) m x0 y0 (|x1 - x0| + -|y1 - y0|) =
      linePoints x0 y0 x1 y1) ∧
    (linePoints x0 y0 x1 y1).head? = some (x0, y0) ∧
    (linePoints x0 y0 x1 y1).getLast? = some (x1, y1) ∧
    (x0, y0) ∈ linePoints x0 y0 x1 y1 ∧
    (x1, y1) ∈ linePoints x0 y0 x1 y1 := by
  obtain ⟨h1, h2, _⟩ := linePoints_spec x0 y0 x1 y1
  refine ⟨fun m hm => linePoints_fuel x0 y0 x1 y1 m hm, h1, h2, ?_, ?_⟩
  · cases hl : linePoints x0 y0 x1 y1 with
    | nil => rw [hl] at h1; simp at h1
    | cons a l =>
        rw [hl] at h1
        simp only [List.head?_cons, Option.some.injEq] at h1
        rw [← h1]
        exact List.mem_cons_self a l
  · cases hl : linePoints x0 y0 x1 y1 with
    | nil => rw [hl] at h2; simp at h2
    | cons a l =>
        rw [hl] at h2
        obtain ⟨hne, hx⟩ := List.mem_getLast?_eq_getLast (l := a :: l)
          (x := (x1, y1)) h2
        rw [hx]
        exact List.getLast_mem hne

theorem c6_line_terminates_witness :
    lineLoop 2 1 1 1 2 (-1) 9 0 0 1 = linePoints 0 0 2 1 ∧
    (linePoints 0 0 2 1).head? = some (0, 0) ∧
    (linePoints 0 0 2 1).getLast? = some (2, 1) :=
  ⟨(c6_line_terminates 0 0 2 1).1 9 (by decide),
   (c6_line_terminates 0 0 2 1).2.1,
   (c6_line_terminates 0 0 2 1).2.2.1⟩

/-- Claim C10: `fb_set` only ORs one bit into the target cell's byte, so
rasterization within a frame is monotone — drawing a further segment never
clears an occupied dot — and, starting from a cleared framebuffer, a dot is
lit exactly when some drawn point maps to it (the byte is the union of the
dots drawn into the cell). -/
theorem c10_fb_monotone_union (cw ch : ℕ) :
    (∀ (fb : ℕ → ℕ) (x0 y0 x1 y1 : ℤ) (a b : ℕ),
      dotTest cw fb a b = true →
      dotTest cw (drawLine cw ch fb x0 y0 x1 y1) a b = true) ∧
    (∀ (ps : List (ℤ × ℤ)) (a b : ℕ), a < pwOf cw → b < phOf ch →
      (dotTest cw (ps.foldl (fun f p => fbSet cw ch f p.1 p.2) fbClear) a b
          = true ↔
        ∃ p ∈ ps, inBounds cw ch p.1 p.2 ∧ p.1.toNat = a ∧ p.2.toNat = b)) := by
  constructor
  · intro fb x0 y0 x1 y1 a b h
    exact dotTest_foldl_mono cw ch _ fb a b h
  · intro ps a b ha hb
    rw [dotTest_foldl cw ch ps fbClear a b ha hb, dotTest_fbClear]
    simp

theorem c10_fb_monotone_union_witness :
    dotTest 1 (drawLine 1 1 (fun _ => 1) 1 3 1 3) 0 0 = true ∧
    (dotTest 1 ([((0:ℤ), (0:ℤ))].foldl (fun f p => fbSet 1 1 f p.1 p.2)
        fbClear) 0 0 = true ↔
      ∃ p ∈ [((0:ℤ), (0:ℤ))], inBounds 1 1 p.1 p.2 ∧
        p.1.toNat = 0 ∧ p.2.toNat = 0) :=
  ⟨(c10_fb_monotone_union 1 1).1 (fun _ => 1) 1 3 1 3 0 0 (by decide),
   (c10_fb_monotone_union 1 1).2 [((0:ℤ), (0:ℤ))] 0 0 (by decide) (by decide)⟩

/-! ## Floor field (`compute_floor` from icosa.c), modelled over `ℚ` -/

/-- The horizon row `horizon = ch * 55 / 100` of `compute_floor` (integer division). -/
def horizonRow (ch : ℕ) : ℕ := ch * 55 / 100

/-- The perspective depth `z = 1 / t` of a row, where
`t = (row - horizon) / (ch - horizon)`. -/
def depthZ (ch row : ℕ) : ℚ :=
  1 / (((row : ℚ) - (horizonRow ch : ℚ)) / ((ch : ℚ) - (horizonRow ch : ℚ)))

/-- The world-space horizontal coordinate
`x = (col / cw - 0.5) * z * 8` of a cell. -/
def worldX (cw ch row col : ℕ) : ℚ :=
  ((col : ℚ) / (cw : ℚ) - 1/2) * depthZ ch row * 8

/-- Embedding of `compute_floor`: per-cell classification, `0 = sky`, `1 = dark tile`,
`2 = light tile`.  The `calloc` zero-fill leaves every cell that the loop
does not write (rows `row ≤ horizon`, and coordinates outside the grid)
as sky. -/
def computeFloor (cw ch row col : ℕ) : ℕ :=
  if horizonRow ch + 1 ≤ row ∧ row < ch ∧ col < cw then
    let t : ℚ := ((row : ℚ) - (horizonRow ch : ℚ)) / ((ch : ℚ) - (horizonRow ch : ℚ))
    let z : ℚ := 1 / t
    let x : ℚ := ((col : ℚ) / (cw : ℚ) - 1/2) * z * 8
    if (⌊x⌋ + ⌊z * 4⌋) % 2 ≠ 0 then 1 else 2
  else 0

/-- Claim C7: for valid geometries the floor field gives every cell exactly
one of the three classes; rows at or above the horizon are sky; cells below
the horizon are dark or light according to the parity of the floored world
coordinates; and the horizon row is `rows * 55 / 100` (13 for 24 rows). -/
theorem c7_floor_field (cw ch : ℕ) (hcw : 20 ≤ cw) (hch : 10 ≤ ch) :
    (∀ row col : ℕ, computeFloor cw ch row col = 0 ∨
      computeFloor cw ch row col = 1 ∨ computeFloor cw ch row col = 2) ∧
    (∀ row col : ℕ, row ≤ horizonRow ch → computeFloor cw ch row col = 0) ∧
    (∀ row col : ℕ, horizonRow ch < row → row < ch → col < cw →
      (computeFloor cw ch row col = 1 ∨ computeFloor cw ch row col = 2) ∧
      (computeFloor cw ch row col = 1 ↔
        (⌊worldX cw ch row col⌋ + ⌊depthZ ch row * 4⌋) % 2 ≠ 0) ∧
      (computeFloor cw ch row col = 2 ↔
        (⌊worldX cw ch row col⌋ + ⌊depthZ ch row * 4⌋) % 2 = 0)) ∧
    horizonRow ch = ch * 55 / 100 ∧
    horizonRow 24 = 13 := by
  refine ⟨?_, ?_, ?_, rfl, by decide⟩
  · intro row col
    unfold computeFloor
    by_cases h : horizonRow ch + 1 ≤ row ∧ row < ch ∧ col < cw
    · rw [if_pos h]
      simp only []
      split_ifs
      · right; left; rfl
      · right; right; rfl
    · rw [if_neg h]
      left; rfl
  · intro row col hrow
    unfold computeFloor
    rw [if_neg (by omega)]
  · intro row col h1 h2 h3
    unfold computeFloor
    rw [if_pos ⟨by omega, h2, h3⟩]
    simp only []
    unfold worldX depthZ
    split_ifs with hpar
    · exact ⟨Or.inl rfl, ⟨fun _ => hpar, fun _ => rfl⟩,
        fun hc => absurd hc (by decide), fun hc => absurd hc hpar⟩
    · have hz := not_not.mp hpar
      exact ⟨Or.inr rfl, ⟨fun hc => absurd hc (by decide),
        fun hc => absurd hc hpar⟩, fun _ => hz, fun _ => rfl⟩

theorem c7_floor_field_witness :
    computeFloor 80 24 13 0 = 0 ∧
    (computeFloor 80 24 14 0 = 1 ∨ computeFloor 80 24 14 0 = 2) ∧
    horizonRow 24 = 13 :=
  ⟨(c7_floor_field 80 24 (by decide) (by decide)).2.1 13 0 (by decide),
   ((c7_floor_field 80 24 (by decide) (by decide)).2.2.1 14 0 (by decide)
      (by decide) (by decide)).1,
   (c7_floor_field 80 24 (by decide) (by decide)).2.2.2.2⟩

/-! ## Compositor/serializer (`render` from icosa.c) -/

/-- Mode of one cell in `render`: an occupied framebuffer cell renders in
the foreground style 3; an empty one uses the floor classification. -/
def cellMode (cw : ℕ) (fb floorMap : ℕ → ℕ) (y x : ℕ) : ℤ :=
  if fb (y * cw + x) ≠ 0 then 3 else (floorMap (y * cw + x) : ℤ)

/-- The mode sequence of output row `y`. -/
def rowModes (cw : ℕ) (fb floorMap : ℕ → ℕ) (y : ℕ) : List ℤ :=
  (List.range cw).map (fun x => cellMode cw fb floorMap y x)

/-- The styles emitted while scanning one row: `render` emits a
style-change control sequence exactly when the cell mode differs from
`prev`. -/
def emitStyles : ℤ → List ℤ → List ℤ
  | _, [] => []
  | prev, m :: ms =>
      if m ≠ prev then m :: emitStyles m ms else emitStyles prev ms

/-- The style-change sequences emitted for row `y`; `prev` is reset to `-1`
at the start of every row. -/
def renderRowStyles (cw : ℕ) (fb floorMap : ℕ → ℕ) (y : ℕ) : List ℤ :=
  emitStyles (-1) (rowModes cw fb floorMap y)

lemma emitStyles_destutter (ms : List ℤ) :
    ∀ a : ℤ, List.destutter' (· ≠ ·) a ms = a :: emitStyles a ms := by
  induction ms with
  | nil => intro a; simp [List.destutter', emitStyles]
  | cons b l ih =>
      intro a
      rw [List.destutter'_cons]
      by_cases h : a = b
      · rw [if_neg (by simp [h]), ih a]
        simp only [emitStyles]
        rw [if_neg (by simp [h])]
      · rw [if_pos h, ih b]
        simp only [emitStyles]
        rw [if_pos (fun hc => h hc.symm)]

lemma cellMode_nonneg (cw : ℕ) (fb floorMap : ℕ → ℕ) (y x : ℕ) :
    0 ≤ cellMode cw fb floorMap y x := by
  unfold cellMode
  split_ifs
  · omega
  · positivity

lemma emitStyles_replicate_zero :
    ∀ n : ℕ, emitStyles 0 (List.replicate n (0 : ℤ)) = [] := by
  intro n
  induction n with
  | zero => rfl
  | succ n ih => simp only [List.replicate, emitStyles, ne_eq,
      not_true_eq_false, if_neg, ite_false]; exact ih

lemma rowModes_zero (cw y : ℕ) (fbz flz : ℕ → ℕ)
    (hfb : ∀ i, fbz i = 0) (hfl : ∀ i, flz i = 0) :
    rowModes cw fbz flz y = List.replicate cw 0 := by
  unfold rowModes cellMode
  simp [hfb, hfl, List.map_const']

/-- Claim C8: within a row `render` emits a style sequence exactly when the
mode changes (the emitted stream is the destuttering of the row's modes,
with state reset at row start), and a frame with an empty framebuffer over
an all-sky floor emits exactly one style per row — the initial reset
(style 0) — and no further changes. -/
theorem c8_style_runs (cw : ℕ) (fb floorMap : ℕ → ℕ) (y : ℕ) :
    renderRowStyles cw fb floorMap y =
      (rowModes cw fb floorMap y).destutter (· ≠ ·) ∧
    (∀ fbz flz : ℕ → ℕ, (∀ i, fbz i = 0) → (∀ i, flz i = 0) → 0 < cw →
      renderRowStyles cw fbz flz y = [0] ∧
      (renderRowStyles cw fbz flz y).length = 1) := by
  constructor
  · cases hms : rowModes cw fb floorMap y with
    | nil => simp [renderRowStyles, hms, emitStyles, List.destutter]
    | cons m ms =>
        have hm : 0 ≤ m := by
          have hmem : m ∈ rowModes cw fb floorMap y := by
            rw [hms]; exact List.mem_cons_self m ms
          unfold rowModes at hmem
          obtain ⟨x, _, hx⟩ := List.mem_map.mp hmem
          rw [← hx]
          exact cellMode_nonneg cw fb floorMap y x
        rw [renderRowStyles, hms, List.destutter, emitStyles_destutter ms m]
        simp only [emitStyles]
        rw [if_pos (by omega : m ≠ -1)]
  · intro fbz flz hfb hfl hcw
    have h : renderRowStyles cw fbz flz y = [0] := by
      rw [renderRowStyles, rowModes_zero cw y fbz flz hfb hfl]
      obtain ⟨k, rfl⟩ : ∃ k, cw = k + 1 := ⟨cw - 1, by omega⟩
      simp only [List.replicate, emitStyles]
      rw [if_pos (by omega : (0:ℤ) ≠ -1), emitStyles_replicate_zero]
    exact ⟨h, by rw [h]; rfl⟩

theorem c8_style_runs_witness :
    renderRowStyles 80 fbClear (fun _ => 0) 0 = [0] ∧
    (renderRowStyles 80 fbClear (fun _ => 0) 0).length = 1 :=
  (c8_style_runs 80 fbClear (fun _ => 0) 0).2 fbClear (fun _ => 0)
    (fun _ => rfl) (fun _ => rfl) (by decide)

/-! ## Physics integrator (the bounce block of `main`), modelled over `ℚ`.

The startup constants `grav` and `restart_vel` (the latter computed with
`sqrtf` in C) enter as positive parameters; `damp = 0.82` and
`squash_decay = 0.70` are literal constants of the source. -/

/-- Bounce state: vertical position, velocity, squash factor. -/
structure Bounce where
  pos : ℚ
  vel : ℚ
  squash : ℚ
deriving DecidableEq

/-- The damping constant `damp = 0.82f`. -/
def damp : ℚ := 82 / 100

/-- The squash decay constant `squash_decay = 0.70f`. -/
def squashDecay : ℚ := 70 / 100

/-- The startup physics constants of `main`. -/
structure Phys where
  grav : ℚ
  restartVel : ℚ
  maxBounce : ℚ
deriving DecidableEq

/-- One frame of the physics integrator:
`vel -= grav; pos += vel;` then the impact branch, then squash decay. -/
def physStep (P : Phys) (s : Bounce) : Bounce :=
  let vel := s.vel - P.grav
  let pos := s.pos + vel
  if pos ≤ 0 then
    let squash := min (|vel| / P.restartVel * (1/2)) (1/2)
    let vel2 := |vel| * damp
    let vel3 := if vel2 < P.grav * 8 then P.restartVel else vel2
    { pos := 0, vel := vel3, squash := squash * squashDecay }
  else
    { pos := pos, vel := vel, squash := s.squash * squashDecay }

/-- The initial bounce state of `main`:
`pos = max_bounce; vel = 0; squash = 0`. -/
def initBounce (P : Phys) : Bounce :=
  { pos := P.maxBounce, vel := 0, squash := 0 }

/-- A state the animation loop can be in after some number of frames. -/
def ReachableBounce (P : Phys) (s : Bounce) : Prop :=
  ∃ n : ℕ, (physStep P)^[n] (initBounce P) = s

lemma physStep_inv (P : Phys) (hr : 0 < P.restartVel) (s : Bounce)
    (h0 : 0 ≤ s.squash) (h1 : s.squash ≤ 1/2) :
    0 ≤ (physStep P s).pos ∧ 0 ≤ (physStep P s).squash ∧
      (physStep P s).squash ≤ 1/2 := by
  unfold physStep
  by_cases himp : s.pos + (s.vel - P.grav) ≤ 0
  · rw [if_pos himp]
    simp only []
    have hm0 : 0 ≤ min (|s.vel - P.grav| / P.restartVel * (1/2)) (1/2) := by
      apply le_min
      · have := abs_nonneg (s.vel - P.grav)
        positivity
      · norm_num
    have hm1 : min (|s.vel - P.grav| / P.restartVel * (1/2)) (1/2) ≤ 1/2 :=
      min_le_right _ _
    refine ⟨le_refl 0, ?_, ?_⟩
    · unfold squashDecay
      positivity
    · unfold squashDecay
      nlinarith
  · rw [if_neg himp]
    simp only []
    push_neg at himp
    refine ⟨himp.le, ?_, ?_⟩
    · unfold squashDecay
      positivity
    · unfold squashDecay
      nlinarith

lemma reachable_squash_bounds (P : Phys) (hr : 0 < P.restartVel) (s : Bounce)
    (hs : ReachableBounce P s) : 0 ≤ s.squash ∧ s.squash ≤ 1/2 := by
  obtain ⟨n, rfl⟩ := hs
  induction n with
  | zero => simp [initBounce]
  | succ n ih =>
      rw [Function.iterate_succ_apply']
      obtain ⟨_, h2, h3⟩ := physStep_inv P hr ((physStep P)^[n] (initBounce P))
        ih.1 ih.2
      exact ⟨h2, h3⟩

/-- Claim C1: from any reachable bounce state, a single integrator step
leaves the vertical position nonnegative and the squash factor in
`[0, 1/2]`. -/
theorem c1_physics_invariants (P : Phys) (hr : 0 < P.restartVel) (s : Bounce)
    (hs : ReachableBounce P s) :
    0 ≤ (physStep P s).pos ∧ 0 ≤ (physStep P s).squash ∧
      (physStep P s).squash ≤ 1/2 := by
  obtain ⟨h0, h1⟩ := reachable_squash_bounds P hr s hs
  exact physStep_inv P hr s h0 h1

theorem c1_physics_invariants_witness :
    0 ≤ (physStep ⟨1, 10, 50⟩ (initBounce ⟨1, 10, 50⟩)).pos ∧
    0 ≤ (physStep ⟨1, 10, 50⟩ (initBounce ⟨1, 10, 50⟩)).squash ∧
    (physStep ⟨1, 10, 50⟩ (initBounce ⟨1, 10, 50⟩)).squash ≤ 1/2 :=
  c1_physics_invariants ⟨1, 10, 50⟩ (by norm_num) (initBounce ⟨1, 10, 50⟩)
    ⟨0, rfl⟩

/-- Claim C2: on an impact step, the post-step velocity magnitude is the
pre-impact magnitude times the damping constant `0.82`, unless that product
falls below the restart threshold `grav * 8`, in which case it equals the
restart constant exactly. -/
theorem c2_impact_damping (P : Phys) (hr : 0 < P.restartVel) (s : Bounce)
    (himp : s.pos + (s.vel - P.grav) ≤ 0) :
    (|s.vel - P.grav| * damp < P.grav * 8 →
      |(physStep P s).vel| = P.restartVel) ∧
    (P.grav * 8 ≤ |s.vel - P.grav| * damp →
      |(physStep P s).vel| = |s.vel - P.grav| * damp) := by
  unfold physStep
  rw [if_pos himp]
  simp only []
  constructor
  · intro hlow
    rw [if_pos hlow]
    exact abs_of_pos hr
  · intro hhigh
    rw [if_neg (not_lt.mpr hhigh)]
    apply abs_of_nonneg
    have := abs_nonneg (s.vel - P.grav)
    unfold damp
    positivity

theorem c2_impact_damping_witness :
    (1 : ℚ) * 8 ≤ |(-20 : ℚ) - 1| * damp ∧
    |(physStep ⟨1, 10, 50⟩ ⟨0, -20, 0⟩).vel| = |(-20 : ℚ) - 1| * damp :=
  ⟨by unfold damp; norm_num,
   (c2_impact_damping ⟨1, 10, 50⟩ (by norm_num) ⟨0, -20, 0⟩
      (by norm_num)).2 (by unfold damp; norm_num)⟩

/-! ## Transform pipeline (the per-vertex loop of `main`), over `ℚ`.

The `sinf`/`cosf` values `s1 c1 s2 c2 s3 c3` computed once per frame enter
as parameters, exactly as the C code passes them into the loop body. -/

/-- The straight-line translation of the per-vertex body: rotate about the
three axes, apply the squash scaling `xzscale = 1 + squash * 0.5` to the
rotated screen-space `x` and `yscale = 1 - squash` to the rotated
screen-space `y`, then perspective-divide with `d = 5 + z2 * 0.3` and map
into screen space. -/
def transformVertex (scale cx cy squash s1 c1 s2 c2 s3 c3 x y z : ℚ) : ℚ × ℚ :=
  let y1 := y * c1 - z * s1
  let z1 := y * s1 + z * c1
  let x2 := x * c2 + z1 * s2
  let z2 := -x * s2 + z1 * c2
  let x3 := (x2 * c3 - y1 * s3) * (1 + squash * (1/2))
  let y3 := (x2 * s3 + y1 * c3) * (1 - squash)
  let d := 5 + z2 * (3/10)
  (cx + x3 / d * scale, cy + y3 / d * scale)

/-- The pure rotation part of the pipeline (X then Y then Z axis), returning
the rotated `(x3, y3, z2)`. -/
def rotXYZ (s1 c1 s2 c2 s3 c3 x y z : ℚ) : ℚ × ℚ × ℚ :=
  let y1 := y * c1 - z * s1
  let z1 := y * s1 + z * c1
  let x2 := x * c2 + z1 * s2
  let z2 := -x * s2 + z1 * c2
  (x2 * c3 - y1 * s3, x2 * s3 + y1 * c3, z2)

/-- The perspective projection part: divide by `d = 5 + z * 0.3` and place
into screen space. -/
def perspProject (scale cx cy : ℚ) (v : ℚ × ℚ × ℚ) : ℚ × ℚ :=
  (cx + v.1 / (5 + v.2.2 * (3/10)) * scale,
   cy + v.2.1 / (5 + v.2.2 * (3/10)) * scale)

/-- The anisotropic scaling the claim describes: vertical scaled by
`1 - squash` and BOTH orthogonal axes — horizontal and depth — scaled by
`1 + squash / 2` before the perspective divide. -/
def claimedSquashScale (squash : ℚ) (v : ℚ × ℚ × ℚ) : ℚ × ℚ × ℚ :=
  (v.1 * (1 + squash * (1/2)), v.2.1 * (1 - squash), v.2.2 * (1 + squash * (1/2)))

/-- The scaling the code actually applies: vertical scaled by `1 - squash`,
horizontal scaled by `1 + squash / 2`, depth left unscaled. -/
def actualSquashScale (squash : ℚ) (v : ℚ × ℚ × ℚ) : ℚ × ℚ × ℚ :=
  (v.1 * (1 + squash * (1/2)), v.2.1 * (1 - squash), v.2.2)

/-- Counterexample to claim C3: with squash `1/2`, identity rotation and
vertex `(1, 0, 1)`, scaling the depth coordinate as the claim states gives a
different projected point than the code produces, because the code's
perspective divide uses the unscaled `z2`. -/
theorem c3_counterexample :
    transformVertex 1 0 0 (1/2) 0 1 0 1 0 1 1 0 1 ≠
      perspProject 1 0 0
        (claimedSquashScale (1/2) (rotXYZ 0 1 0 1 0 1 1 0 1)) := by
  simp only [transformVertex, perspProject, claimedSquashScale, rotXYZ]
  norm_num [Prod.mk.injEq]

/-- Claim C3 (amended): the pipeline factors as rotation, then anisotropic
scaling of the two SCREEN axes only — horizontal by `1 + squash / 2`,
vertical by `1 - squash`, the depth coordinate unscaled — then the
perspective divide. -/
theorem c3_squash_scaling (scale cx cy squash s1 c1 s2 c2 s3 c3 x y z : ℚ) :
    transformVertex scale cx cy squash s1 c1 s2 c2 s3 c3 x y z =
      perspProject scale cx cy
        (actualSquashScale squash (rotXYZ s1 c1 s2 c2 s3 c3 x y z)) := rfl

/-! ## Startup geometry check (`main`, lines 188-199) -/

/-- Outcome of `main`'s startup: either an early `return 1` before any frame
is rendered, or entry into the rendering pipeline with the validated
geometry. -/
inductive StartupResult where
  | earlyExit (status : ℕ) (framesRendered : ℕ)
  | enterPipeline (cw ch : ℕ)
deriving DecidableEq

/-- The geometry check of `main`: `ioctl` failure is `none`; otherwise the
queried `(cols, rows)`.  Below-minimum geometry returns exit status 1 with
no frames rendered. -/
def startup : Option (ℕ × ℕ) → StartupResult
  | none => .earlyExit 1 0
  | some (c, r) =>
      if c < 20 ∨ r < 10 then .earlyExit 1 0 else .enterPipeline c r

/-- Claim C9: if the geometry query fails or reports fewer than 20 columns
or fewer than 10 rows, the program exits with nonzero status having rendered
no frames, and the rendering pipeline is never entered. -/
theorem c9_min_geometry (geom : Option (ℕ × ℕ))
    (h : geom = none ∨ ∃ c r, geom = some (c, r) ∧ (c < 20 ∨ r < 10)) :
    startup geom = .earlyExit 1 0 ∧
    ∀ cw ch : ℕ, startup geom ≠ .enterPipeline cw ch := by
  have hmain : startup geom = .earlyExit 1 0 := by
    rcases h with rfl | ⟨c, r, rfl, hcr⟩
    · rfl
    · simp only [startup]
      rw [if_pos hcr]
  refine ⟨hmain, ?_⟩
  intro cw ch hcon
  rw [hmain] at hcon
  exact StartupResult.noConfusion hcon

theorem c9_min_geometry_witness :
    startup (some (19, 30)) = .earlyExit 1 0 ∧
    startup (some (19, 30)) ≠ .enterPipeline 19 30 :=
  ⟨(c9_min_geometry (some (19, 30)) (Or.inr ⟨19, 30, rfl, Or.inl (by decide)⟩)).1,
   (c9_min_geometry (some (19, 30)) (Or.inr ⟨19, 30, rfl, Or.inl (by decide)⟩)).2
     19 30⟩

end Icosa
